import Mathlib

/-!
Shallow embedding of the go-broadcast package (broadcaster.go, mux_observer.go).

Channels delivering values to subscribers are identified by natural numbers;
the history of values each endpoint channel has received is recorded in a
`delivered` map. The Go runtime behaviours that matter here are modelled
explicitly: a buffered channel send succeeds iff the buffer is not full,
ranging over a missing map key iterates zero times, closing a closed channel
is a runtime fault (`Option.none`), and calling a method on a nil pointer
faults as soon as a field is dereferenced.
-/

namespace GoBroadcast

variable {T : Type}

/-! ## Broadcaster (broadcaster.go) -/

/-- State of a `broadcaster[T]`: the buffered `input` channel (front = oldest),
the `outputs` map (a set of endpoint channel ids, keys unique), the closed
flags of the two control channels, and the delivery history of every endpoint
channel. -/
structure BState (T : Type) where
  inputCap : Nat
  input : List T
  outputs : List Nat
  delivered : Nat → List T
  regClosed : Bool
  unregClosed : Bool

/-- Go map assignment `outputs[ch] = true`: a no-op when the key is present,
otherwise the key is added. -/
def insertEp (ch : Nat) (eps : List Nat) : List Nat :=
  if ch ∈ eps then eps else eps ++ [ch]

/-- One channel send `ch <- m`: endpoint `ch` appends `m` to its history. -/
def updateDelivered (d : Nat → List T) (ch : Nat) (m : T) : Nat → List T :=
  fun e => if e = ch then d e ++ [m] else d e

/-- `for ch := range outputs { ch <- m }`: deliver `m` to each channel in turn. -/
def deliverList (chs : List Nat) (m : T) (d : Nat → List T) : Nat → List T :=
  chs.foldl (fun acc ch => updateDelivered acc ch m) d

/-- `broadcaster.broadcast`: fan `m` out to every registered output channel. -/
def bBroadcast (m : T) (s : BState T) : BState T :=
  { s with delivered := deliverList s.outputs m s.delivered }

/-- The events the `broadcaster.run` select loop can observe: a value on
`input`, a registration on `reg` (with `ok = true`), the `reg` channel closed
(`ok = false`), or an unregistration on `unreg`. -/
inductive BEvent (T : Type) where
  | inputEv (m : T)
  | regEv (ch : Nat)
  | regClosedEv
  | unregEv (ch : Nat)

/-- One iteration of `broadcaster.run`; `none` means the loop returned. -/
def bStep (s : BState T) : BEvent T → Option (BState T)
  | .inputEv m => some (bBroadcast m s)
  | .regEv ch => some { s with outputs := insertEp ch s.outputs }
  | .regClosedEv => none
  | .unregEv ch => some { s with outputs := s.outputs.erase ch }

/-- Run `broadcaster.run` over a sequence of observed events, stopping when
the loop returns. -/
def bRun (s : BState T) : List (BEvent T) → BState T
  | [] => s
  | ev :: evs =>
    match bStep s ev with
    | some s2 => bRun s2 evs
    | none => s

/-- Outcome of a (possibly blocking) submission call. -/
inductive SubmitRes (σ : Type) where
  | fault
  | noop
  | blocked
  | accepted (s : σ)

/-- `broadcaster.Submit`: nil receiver is guarded (`if b != nil`) and returns
without effect; otherwise the send blocks iff the input buffer is full. -/
def bSubmit (b : Option (BState T)) (m : T) : SubmitRes (BState T) :=
  match b with
  | none => .noop
  | some s =>
    if s.input.length < s.inputCap then .accepted { s with input := s.input ++ [m] }
    else .blocked

/-- `broadcaster.TrySubmit`: `false` on a nil receiver; otherwise the
non-blocking send succeeds iff the input buffer has room. -/
def bTrySubmit (b : Option (BState T)) (m : T) : Bool × Option (BState T) :=
  match b with
  | none => (false, none)
  | some s =>
    if s.input.length < s.inputCap then (true, some { s with input := s.input ++ [m] })
    else (false, some s)

/-- `broadcaster.Close`: `close(b.reg); close(b.unreg); return nil`.
Closing an already-closed channel is a runtime fault (`none`). -/
def bClose (s : BState T) : Option (BState T × Option String) :=
  if s.regClosed then none
  else if s.unregClosed then none
  else some ({ s with regClosed := true, unregClosed := true }, none)

/-- Specification-side ledger: the values endpoint `e` is supposed to
receive when the loop, starting from output set `outs`, observes `evs` —
one copy of each dequeued value while `e` is registered, in order. -/
def specDeliveries (e : Nat) (outs : List Nat) : List (BEvent T) → List T
  | [] => []
  | .inputEv m :: evs => (if e ∈ outs then [m] else []) ++ specDeliveries e outs evs
  | .regEv c :: evs => specDeliveries e (insertEp c outs) evs
  | .regClosedEv :: _ => []
  | .unregEv c :: evs => specDeliveries e (outs.erase c) evs

/-- The values submitted to the loop, in submission order. -/
def submittedValues : List (BEvent T) → List T
  | [] => []
  | .inputEv m :: evs => m :: submittedValues evs
  | .regEv _ :: evs => submittedValues evs
  | .regClosedEv :: evs => submittedValues evs
  | .unregEv _ :: evs => submittedValues evs

/-! ### Basic lemmas about fan-out -/

theorem mem_insertEp {a ch : Nat} {eps : List Nat} :
    a ∈ insertEp ch eps ↔ a ∈ eps ∨ a = ch := by
  unfold insertEp
  by_cases h : ch ∈ eps
  · simp only [if_pos h]
    constructor
    · exact Or.inl
    · rintro (ha | rfl)
      · exact ha
      · exact h
  · simp [if_neg h, List.mem_append]

theorem nodup_insertEp {ch : Nat} {eps : List Nat} (h : eps.Nodup) :
    (insertEp ch eps).Nodup := by
  unfold insertEp
  by_cases hm : ch ∈ eps
  · simpa [if_pos hm]
  · simp only [if_neg hm]
    simpa [List.nodup_append] using And.intro h hm

theorem insertEp_ne_nil (ch : Nat) (eps : List Nat) : insertEp ch eps ≠ [] := by
  unfold insertEp
  by_cases hm : ch ∈ eps
  · simp only [if_pos hm]
    rintro rfl
    exact absurd hm (List.not_mem_nil ch)
  · simp [if_neg hm]

theorem deliverList_cons (c : Nat) (cs : List Nat) (m : T) (d : Nat → List T) :
    deliverList (c :: cs) m d = deliverList cs m (updateDelivered d c m) := rfl

theorem deliverList_not_mem (cs : List Nat) (m : T) (d : Nat → List T) (e : Nat)
    (h : e ∉ cs) : deliverList cs m d e = d e := by
  induction cs generalizing d with
  | nil => rfl
  | cons c cs ih =>
    rw [deliverList_cons]
    have hne : e ≠ c := fun hc => h (hc ▸ List.mem_cons_self c cs)
    have hcs : e ∉ cs := fun hc => h (List.mem_cons_of_mem c hc)
    rw [ih _ hcs]
    simp [updateDelivered, hne]

theorem deliverList_eval (cs : List Nat) (hnd : cs.Nodup) (m : T)
    (d : Nat → List T) (e : Nat) :
    deliverList cs m d e = if e ∈ cs then d e ++ [m] else d e := by
  induction cs generalizing d with
  | nil => simp [deliverList]
  | cons c cs ih =>
    rcases List.nodup_cons.mp hnd with ⟨hc, hcs⟩
    rw [deliverList_cons]
    by_cases hec : e = c
    · subst hec
      rw [deliverList_not_mem cs m _ e hc]
      simp [updateDelivered]
    · rw [ih hcs]
      simp [updateDelivered, hec, List.mem_cons]

/-! ## MuxObserver (mux_observer.go) -/

/-- The three registration request kinds (`register`, `unregister`, `purge`). -/
inductive RegType where
  | register
  | unregister
  | purge
deriving DecidableEq, Repr

/-- `taggedRegReq[T]`: the sub-observer is identified by its token (a `Nat`,
standing for the pointer identity of the `subObserver`). -/
structure TaggedRegReq where
  sub : Nat
  ch : Nat
  regType : RegType
deriving DecidableEq, Repr

/-- The `subs` map `map[*subObserver[T]]map[chan<- T]bool`: an association
list from token to the set of endpoint channel ids registered under it. -/
abbrev Subs := List (Nat × List Nat)

/-- Go map lookup `m.subs[tok]` (with its `exists` flag as `Option`). -/
def lookupTok : Subs → Nat → Option (List Nat)
  | [], _ => none
  | (t, eps) :: rest, tok => if t = tok then some eps else lookupTok rest tok

/-- Go map assignment `m.subs[tok] = eps` for a key that is present:
every entry with key `tok` is replaced. -/
def updateTok : Subs → Nat → List Nat → Subs
  | [], _, _ => []
  | (t, v) :: rest, tok, eps =>
    (if t = tok then (t, eps) else (t, v)) :: updateTok rest tok eps

/-- Go map `delete(m.subs, tok)`. -/
def removeTok : Subs → Nat → Subs
  | [], _ => []
  | (t, v) :: rest, tok =>
    if t = tok then removeTok rest tok else (t, v) :: removeTok rest tok

/-- `MuxObserver.doReg`: create the (one-element) endpoint set if the token
is absent, otherwise add the channel to the existing set. -/
def doReg (tr : TaggedRegReq) (subs : Subs) : Subs :=
  match lookupTok subs tr.sub with
  | none => subs ++ [(tr.sub, [tr.ch])]
  | some eps => updateTok subs tr.sub (insertEp tr.ch eps)

/-- `MuxObserver.doUnreg`: remove the channel from the token's set if the
token is present, deleting the whole entry when the set becomes empty. -/
def doUnreg (tr : TaggedRegReq) (subs : Subs) : Subs :=
  match lookupTok subs tr.sub with
  | none => subs
  | some eps =>
    let eps2 := eps.erase tr.ch
    if eps2 = [] then removeTok subs tr.sub else updateTok subs tr.sub eps2

/-- `MuxObserver.handleReg`: dispatch on the request kind. -/
def handleReg (tr : TaggedRegReq) (subs : Subs) : Subs :=
  match tr.regType with
  | .register => doReg tr subs
  | .unregister => doUnreg tr subs
  | .purge => removeTok subs tr.sub

/-- State of a `MuxObserver[T]`: the token-to-endpoints map, the buffered
`input` channel of tagged observations, the buffered `reg` channel of pending
requests with its closed flag, and the per-endpoint delivery history. -/
structure MuxState (T : Type) where
  subs : Subs
  delivered : Nat → List T
  input : List (Nat × T)
  inputCap : Nat
  regQueue : List TaggedRegReq
  regClosed : Bool

/-- `MuxObserver.broadcast`: `for ch := range m.subs[to.sub] { ch <- to.ob }`.
A missing key yields the nil map, i.e. zero iterations. -/
def muxBroadcast (tok : Nat) (v : T) (s : MuxState T) : MuxState T :=
  { s with delivered := deliverList ((lookupTok s.subs tok).getD []) v s.delivered }

/-- `handleReg` lifted to the observer state. -/
def muxHandleReg (tr : TaggedRegReq) (s : MuxState T) : MuxState T :=
  { s with subs := handleReg tr s.subs }

/-- The messages the `MuxObserver.run` loop consumes, in the order it
dequeues them: registration requests and tagged observations. -/
inductive MuxEvent (T : Type) where
  | regReq (tr : TaggedRegReq)
  | obs (tok : Nat) (v : T)

/-- Process one dequeued message. -/
def muxProcess (s : MuxState T) : MuxEvent T → MuxState T
  | .regReq tr => muxHandleReg tr s
  | .obs tok v => muxBroadcast tok v s

/-- Run the loop body over a sequence of dequeued messages. -/
def muxRunEvents (s : MuxState T) (evs : List (MuxEvent T)) : MuxState T :=
  evs.foldl muxProcess s

/-- Result of one iteration of `MuxObserver.run`. -/
inductive IterResult (T : Type) where
  | next (s : MuxState T)
  | terminated
  | blocked

/-- One iteration of `MuxObserver.run`: the outer select takes the `reg`
channel whenever it is ready (a buffered request, or the channel closed with
an empty buffer, in which case the loop returns); only the `default` branch
falls through to the blocking select over `input` and `reg`. -/
def muxIter (s : MuxState T) : IterResult T :=
  match s.regQueue with
  | tr :: rest => .next (muxHandleReg tr { s with regQueue := rest })
  | [] =>
    if s.regClosed then .terminated
    else
      match s.input with
      | ob :: rest => .next (muxBroadcast ob.1 ob.2 { s with input := rest })
      | [] => .blocked

/-- `MuxObserver.Close`: `close(m.reg); return nil`; closing a closed
channel faults. -/
def muxClose (s : MuxState T) : Option (MuxState T × Option String) :=
  if s.regClosed then none
  else some ({ s with regClosed := true }, none)

/-- `subObserver.Submit`: a nil handle faults immediately (the body
dereferences `s.mo` with no nil guard); otherwise the send on the shared
`input` channel blocks iff the buffer is full. -/
def subSubmit (sub : Option Nat) (mux : MuxState T) (v : T) : SubmitRes (MuxState T) :=
  match sub with
  | none => .fault
  | some tok =>
    if mux.input.length < mux.inputCap then
      .accepted { mux with input := mux.input ++ [(tok, v)] }
    else .blocked

/-- `subObserver.TrySubmit`: `false` on a nil handle (guarded), otherwise the
non-blocking send succeeds iff the shared buffer has room. -/
def subTrySubmit (sub : Option Nat) (mux : MuxState T) (v : T) : Bool × MuxState T :=
  match sub with
  | none => (false, mux)
  | some tok =>
    if mux.input.length < mux.inputCap then
      (true, { mux with input := mux.input ++ [(tok, v)] })
    else (false, mux)

/-- Invariant: every entry of the subscription map has a nonempty endpoint
set. -/
def SubsInv (subs : Subs) : Prop := ∀ p ∈ subs, p.2 ≠ []

/-- Every entry's endpoint set is duplicate-free (Go map keys are unique). -/
def EpsNodup (subs : Subs) : Prop := ∀ p ∈ subs, p.2.Nodup

/-- The tokens of the subscription map are pairwise distinct. -/
def KeysNodup (subs : Subs) : Prop := (subs.map Prod.fst).Nodup

instance decidableSubsInv (subs : Subs) : Decidable (SubsInv subs) :=
  List.decidableBAll (fun p : Nat × List Nat => p.2 ≠ []) subs

instance decidableEpsNodup (subs : Subs) : Decidable (EpsNodup subs) :=
  List.decidableBAll (fun p : Nat × List Nat => p.2.Nodup) subs

instance decidableKeysNodup (subs : Subs) : Decidable (KeysNodup subs) :=
  List.nodupDecidable (subs.map Prod.fst)

/-- Specification-side ledger for the multiplexer: the tagged observations
endpoint `e` receives while the loop, starting from map `subs`, consumes
`evs`. -/
def specReceived (e : Nat) (subs : Subs) : List (MuxEvent T) → List (Nat × T)
  | [] => []
  | .regReq tr :: evs => specReceived e (handleReg tr subs) evs
  | .obs tok v :: evs =>
    (if e ∈ (lookupTok subs tok).getD [] then [(tok, v)] else []) ++
      specReceived e subs evs

/-- `true` iff `evs` contains no request registering channel `e` under token
`tokB`. -/
def noRegUnder (tokB e : Nat) : List (MuxEvent T) → Bool
  | [] => true
  | .regReq tr :: evs =>
    (!(decide (tr.sub = tokB) && decide (tr.ch = e) &&
        decide (tr.regType = RegType.register))) && noRegUnder tokB e evs
  | .obs _ _ :: evs => noRegUnder tokB e evs

/-! ### Lemmas about the subscription map -/

theorem lookupTok_mem {subs : Subs} {tok : Nat} {eps : List Nat}
    (h : lookupTok subs tok = some eps) : (tok, eps) ∈ subs := by
  induction subs with
  | nil => exact absurd h (by simp [lookupTok])
  | cons p rest ih =>
    obtain ⟨t, v⟩ := p
    by_cases ht : t = tok
    · subst ht
      rw [lookupTok, if_pos rfl, Option.some_inj] at h
      subst h
      exact List.mem_cons_self _ _
    · rw [lookupTok, if_neg ht] at h
      exact List.mem_cons_of_mem _ (ih h)

theorem lookupTok_removeTok_self (subs : Subs) (tok : Nat) :
    lookupTok (removeTok subs tok) tok = none := by
  induction subs with
  | nil => rfl
  | cons p rest ih =>
    obtain ⟨t, v⟩ := p
    by_cases ht : t = tok
    · rw [removeTok, if_pos ht]
      exact ih
    · rw [removeTok, if_neg ht, lookupTok, if_neg ht]
      exact ih

theorem lookupTok_removeTok_ne (subs : Subs) (tok tok2 : Nat) (h : tok2 ≠ tok) :
    lookupTok (removeTok subs tok) tok2 = lookupTok subs tok2 := by
  induction subs with
  | nil => rfl
  | cons p rest ih =>
    obtain ⟨t, v⟩ := p
    by_cases ht : t = tok
    · have ht2 : t ≠ tok2 := fun he => h (he ▸ ht)
      rw [removeTok, if_pos ht, lookupTok, if_neg ht2]
      exact ih
    · rw [removeTok, if_neg ht, lookupTok, lookupTok]
      by_cases ht2 : t = tok2
      · rw [if_pos ht2, if_pos ht2]
      · rw [if_neg ht2, if_neg ht2]
        exact ih

theorem lookupTok_updateTok_ne (subs : Subs) (tok tok2 : Nat) (eps : List Nat)
    (h : tok2 ≠ tok) :
    lookupTok (updateTok subs tok eps) tok2 = lookupTok subs tok2 := by
  induction subs with
  | nil => rfl
  | cons p rest ih =>
    obtain ⟨t, v⟩ := p
    rw [updateTok]
    by_cases ht : t = tok
    · have ht2 : t ≠ tok2 := fun he => h (he ▸ ht)
      rw [if_pos ht, lookupTok, if_neg ht2, lookupTok, if_neg ht2]
      exact ih
    · rw [if_neg ht, lookupTok, lookupTok]
      by_cases ht2 : t = tok2
      · rw [if_pos ht2, if_pos ht2]
      · rw [if_neg ht2, if_neg ht2]
        exact ih

theorem lookupTok_updateTok_self (subs : Subs) (tok : Nat) (eps v0 : List Nat)
    (h : lookupTok subs tok = some v0) :
    lookupTok (updateTok subs tok eps) tok = some eps := by
  induction subs with
  | nil => exact absurd h (by simp [lookupTok])
  | cons p rest ih =>
    obtain ⟨t, v⟩ := p
    rw [updateTok]
    by_cases ht : t = tok
    · rw [if_pos ht, lookupTok, if_pos ht]
    · rw [lookupTok, if_neg ht] at h
      rw [if_neg ht, lookupTok, if_neg ht]
      exact ih h

theorem updateTok_id_of_none (subs : Subs) (tok : Nat) (eps : List Nat)
    (h : lookupTok subs tok = none) : updateTok subs tok eps = subs := by
  induction subs with
  | nil => rfl
  | cons p rest ih =>
    obtain ⟨t, v⟩ := p
    by_cases ht : t = tok
    · rw [lookupTok, if_pos ht] at h
      exact absurd h (by simp)
    · rw [lookupTok, if_neg ht] at h
      rw [updateTok, if_neg ht, ih h]

theorem lookupTok_append_none (subs : Subs) (q : Nat × List Nat) (tok : Nat)
    (h : lookupTok subs tok = none) :
    lookupTok (subs ++ [q]) tok = if q.1 = tok then some q.2 else none := by
  induction subs with
  | nil => rfl
  | cons p rest ih =>
    obtain ⟨t, v⟩ := p
    by_cases ht : t = tok
    · rw [lookupTok, if_pos ht] at h
      exact absurd h (by simp)
    · rw [lookupTok, if_neg ht] at h
      rw [List.cons_append, lookupTok, if_neg ht]
      exact ih h

theorem lookupTok_append_some (subs : Subs) (q : Nat × List Nat) (tok : Nat)
    (v0 : List Nat) (h : lookupTok subs tok = some v0) :
    lookupTok (subs ++ [q]) tok = some v0 := by
  induction subs with
  | nil => exact absurd h (by simp [lookupTok])
  | cons p rest ih =>
    obtain ⟨t, v⟩ := p
    rw [List.cons_append, lookupTok]
    by_cases ht : t = tok
    · rw [lookupTok, if_pos ht] at h
      rw [if_pos ht]
      exact h
    · rw [lookupTok, if_neg ht] at h
      rw [if_neg ht]
      exact ih h

theorem mem_updateTok {subs : Subs} {tok : Nat} {eps : List Nat}
    {p : Nat × List Nat} (hp : p ∈ updateTok subs tok eps) :
    (p.2 = eps) ∨ p ∈ subs := by
  induction subs with
  | nil => exact absurd hp (by simp [updateTok])
  | cons q rest ih =>
    obtain ⟨t, v⟩ := q
    rw [updateTok] at hp
    rcases List.mem_cons.mp hp with hp | hp
    · by_cases ht : t = tok
      · rw [if_pos ht] at hp
        left
        rw [hp]
      · rw [if_neg ht] at hp
        right
        rw [hp]
        exact List.mem_cons_self _ _
    · rcases ih hp with hh | hh
      · exact Or.inl hh
      · exact Or.inr (List.mem_cons_of_mem _ hh)

theorem mem_removeTok {subs : Subs} {tok : Nat} {p : Nat × List Nat}
    (hp : p ∈ removeTok subs tok) : p ∈ subs := by
  induction subs with
  | nil => exact absurd hp (by simp [removeTok])
  | cons q rest ih =>
    obtain ⟨t, v⟩ := q
    rw [removeTok] at hp
    by_cases ht : t = tok
    · rw [if_pos ht] at hp
      exact List.mem_cons_of_mem _ (ih hp)
    · rw [if_neg ht] at hp
      rcases List.mem_cons.mp hp with hp | hp
      · exact hp ▸ List.mem_cons_self _ _
      · exact List.mem_cons_of_mem _ (ih hp)

theorem subsInv_handleReg (tr : TaggedRegReq) (subs : Subs) (h : SubsInv subs) :
    SubsInv (handleReg tr subs) := by
  obtain ⟨sub, ch, rt⟩ := tr
  cases rt with
  | register =>
    show SubsInv (doReg ⟨sub, ch, .register⟩ subs)
    unfold doReg
    cases hl : lookupTok subs sub with
    | none =>
      intro p hp
      rcases List.mem_append.mp hp with hp | hp
      · exact h p hp
      · simp only [List.mem_singleton] at hp
        subst hp
        simp
    | some eps =>
      intro p hp
      rcases mem_updateTok hp with hp | hp
      · rw [hp]
        exact insertEp_ne_nil _ _
      · exact h p hp
  | unregister =>
    show SubsInv (doUnreg ⟨sub, ch, .unregister⟩ subs)
    unfold doUnreg
    cases hl : lookupTok subs sub with
    | none => exact h
    | some eps =>
      by_cases he : eps.erase ch = []
      · simp only [he, if_pos rfl]
        intro p hp
        exact h p (mem_removeTok hp)
      · simp only [if_neg he]
        intro p hp
        rcases mem_updateTok hp with hp | hp
        · rw [hp]
          exact he
        · exact h p hp
  | purge =>
    intro p hp
    exact h p (mem_removeTok hp)

theorem epsNodup_handleReg (tr : TaggedRegReq) (subs : Subs) (h : EpsNodup subs) :
    EpsNodup (handleReg tr subs) := by
  obtain ⟨sub, ch, rt⟩ := tr
  cases rt with
  | register =>
    show EpsNodup (doReg ⟨sub, ch, .register⟩ subs)
    unfold doReg
    cases hl : lookupTok subs sub with
    | none =>
      intro p hp
      rcases List.mem_append.mp hp with hp | hp
      · exact h p hp
      · simp only [List.mem_singleton] at hp
        subst hp
        simp
    | some eps =>
      intro p hp
      rcases mem_updateTok hp with hp | hp
      · rw [hp]
        exact nodup_insertEp (h _ (lookupTok_mem hl))
      · exact h p hp
  | unregister =>
    show EpsNodup (doUnreg ⟨sub, ch, .unregister⟩ subs)
    unfold doUnreg
    cases hl : lookupTok subs sub with
    | none => exact h
    | some eps =>
      by_cases he : eps.erase ch = []
      · simp only [he, if_pos rfl]
        intro p hp
        exact h p (mem_removeTok hp)
      · simp only [if_neg he]
        intro p hp
        rcases mem_updateTok hp with hp | hp
        · rw [hp]
          exact (h _ (lookupTok_mem hl)).erase ch
        · exact h p hp
  | purge =>
    intro p hp
    exact h p (mem_removeTok hp)

theorem epsNodup_lookup (subs : Subs) (tok : Nat) (h : EpsNodup subs) :
    ((lookupTok subs tok).getD []).Nodup := by
  cases hl : lookupTok subs tok with
  | none => simp
  | some eps => simpa using h _ (lookupTok_mem hl)

/-! ### Characterizing the broadcaster loop -/

theorem bRun_delivered (e : Nat) (evs : List (BEvent T)) :
    ∀ s : BState T, s.outputs.Nodup →
      (bRun s evs).delivered e = s.delivered e ++ specDeliveries e s.outputs evs := by
  induction evs with
  | nil =>
    intro s _
    simp [bRun, specDeliveries]
  | cons ev evs ih =>
    intro s hnd
    cases ev with
    | inputEv m =>
      have hrun : bRun s (BEvent.inputEv m :: evs) = bRun (bBroadcast m s) evs := rfl
      rw [hrun, ih (bBroadcast m s) hnd]
      have hdel : (bBroadcast m s).delivered e = deliverList s.outputs m s.delivered e := rfl
      rw [hdel, deliverList_eval s.outputs hnd m s.delivered e]
      have houts : (bBroadcast m s).outputs = s.outputs := rfl
      rw [houts]
      by_cases he : e ∈ s.outputs
      · simp [specDeliveries, he, List.append_assoc]
      · simp [specDeliveries, he]
    | regEv c =>
      have hrun : bRun s (BEvent.regEv c :: evs) =
          bRun { s with outputs := insertEp c s.outputs } evs := rfl
      rw [hrun, ih _ (nodup_insertEp hnd)]
      rfl
    | regClosedEv =>
      have hrun : bRun s (BEvent.regClosedEv :: evs) = s := rfl
      rw [hrun]
      simp [specDeliveries]
    | unregEv c =>
      have hrun : bRun s (BEvent.unregEv c :: evs) =
          bRun { s with outputs := s.outputs.erase c } evs := rfl
      rw [hrun, ih _ (hnd.erase c)]
      rfl

theorem specDeliveries_sublist (e : Nat) (evs : List (BEvent T)) :
    ∀ outs : List Nat,
      List.Sublist (specDeliveries e outs evs) (submittedValues evs) := by
  induction evs with
  | nil =>
    intro outs
    simp [specDeliveries, submittedValues]
  | cons ev evs ih =>
    intro outs
    cases ev with
    | inputEv m =>
      rw [specDeliveries, submittedValues]
      by_cases he : e ∈ outs
      · rw [if_pos he]
        exact (ih outs).cons₂ m
      · rw [if_neg he]
        simpa using (ih outs).cons m
    | regEv c => exact ih _
    | regClosedEv =>
      rw [specDeliveries]
      exact List.nil_sublist _
    | unregEv c => exact ih _

/-! ### Characterizing the multiplexer loop -/

theorem muxRun_delivered (e : Nat) (evs : List (MuxEvent T)) :
    ∀ s : MuxState T, EpsNodup s.subs →
      (muxRunEvents s evs).delivered e =
        s.delivered e ++ (specReceived e s.subs evs).map Prod.snd := by
  induction evs with
  | nil =>
    intro s _
    simp [muxRunEvents, specReceived]
  | cons ev evs ih =>
    intro s hnd
    cases ev with
    | regReq tr =>
      have hrun : muxRunEvents s (MuxEvent.regReq tr :: evs) =
          muxRunEvents (muxHandleReg tr s) evs := rfl
      rw [hrun, ih (muxHandleReg tr s) (epsNodup_handleReg tr s.subs hnd)]
      rfl
    | obs tok v =>
      have hrun : muxRunEvents s (MuxEvent.obs tok v :: evs) =
          muxRunEvents (muxBroadcast tok v s) evs := rfl
      rw [hrun, ih (muxBroadcast tok v s) hnd]
      have hdel : (muxBroadcast tok v s).delivered e =
          deliverList ((lookupTok s.subs tok).getD []) v s.delivered e := rfl
      rw [hdel, deliverList_eval _ (epsNodup_lookup s.subs tok hnd) v s.delivered e]
      have hsubs : (muxBroadcast tok v s).subs = s.subs := rfl
      rw [hsubs]
      by_cases he : e ∈ (lookupTok s.subs tok).getD []
      · simp [specReceived, he, List.append_assoc]
      · simp [specReceived, he]

theorem notMem_handleReg (tr : TaggedRegReq) (subs : Subs) (B e : Nat)
    (h : e ∉ (lookupTok subs B).getD [])
    (hr : ¬(tr.sub = B ∧ tr.ch = e ∧ tr.regType = RegType.register)) :
    e ∉ (lookupTok (handleReg tr subs) B).getD [] := by
  obtain ⟨sub, ch, rt⟩ := tr
  cases rt with
  | register =>
    have hch : sub = B → ch ≠ e := fun hsub hche => hr ⟨hsub, hche, rfl⟩
    show e ∉ (lookupTok (doReg ⟨sub, ch, .register⟩ subs) B).getD []
    unfold doReg
    cases hl : lookupTok subs sub with
    | none =>
      cases hlB : lookupTok subs B with
      | none =>
        rw [lookupTok_append_none subs (sub, [ch]) B hlB]
        by_cases hsB : sub = B
        · rw [if_pos hsB]
          simp only [Option.getD_some, List.mem_singleton]
          exact fun hx => hch hsB hx.symm
        · rw [if_neg hsB]
          simp
      | some w =>
        rw [lookupTok_append_some subs (sub, [ch]) B w hlB]
        rw [hlB] at h
        exact h
    | some eps =>
      by_cases hsB : sub = B
      · subst hsB
        rw [lookupTok_updateTok_self subs sub _ eps hl]
        rw [hl] at h
        simp only [Option.getD_some] at h ⊢
        intro hx
        rcases mem_insertEp.mp hx with hx | hx
        · exact h hx
        · exact hch rfl hx.symm
      · rw [lookupTok_updateTok_ne subs sub B _ (fun hB => hsB hB.symm)]
        exact h
  | unregister =>
    show e ∉ (lookupTok (doUnreg ⟨sub, ch, .unregister⟩ subs) B).getD []
    unfold doUnreg
    cases hl : lookupTok subs sub with
    | none => exact h
    | some eps =>
      by_cases he2 : eps.erase ch = []
      · simp only [if_pos he2]
        by_cases hsB : sub = B
        · subst hsB
          rw [lookupTok_removeTok_self]
          simp
        · rw [lookupTok_removeTok_ne subs sub B (fun hB => hsB hB.symm)]
          exact h
      · simp only [if_neg he2]
        by_cases hsB : sub = B
        · subst hsB
          rw [lookupTok_updateTok_self subs sub _ eps hl]
          rw [hl] at h
          simp only [Option.getD_some] at h ⊢
          exact fun hx => h (List.mem_of_mem_erase hx)
        · rw [lookupTok_updateTok_ne subs sub B _ (fun hB => hsB hB.symm)]
          exact h
  | purge =>
    show e ∉ (lookupTok (removeTok subs sub) B).getD []
    by_cases hsB : sub = B
    · subst hsB
      rw [lookupTok_removeTok_self]
      simp
    · rw [lookupTok_removeTok_ne subs sub B (fun hB => hsB hB.symm)]
      exact h

theorem specReceived_avoid (e B : Nat) (evs : List (MuxEvent T)) :
    ∀ subs : Subs, e ∉ (lookupTok subs B).getD [] →
      noRegUnder B e evs = true →
      ∀ p ∈ specReceived e subs evs, p.1 ≠ B := by
  induction evs with
  | nil =>
    intro subs _ _ p hp
    exact absurd hp (by simp [specReceived])
  | cons ev evs ih =>
    intro subs h hreg p hp
    cases ev with
    | regReq tr =>
      rw [specReceived] at hp
      rw [noRegUnder, Bool.and_eq_true] at hreg
      obtain ⟨h1, h2⟩ := hreg
      have hr : ¬(tr.sub = B ∧ tr.ch = e ∧ tr.regType = RegType.register) := by
        rintro ⟨ha, hb, hc⟩
        simp [ha, hb, hc] at h1
      exact ih (handleReg tr subs) (notMem_handleReg tr subs B e h hr) h2 p hp
    | obs tok v =>
      rw [specReceived] at hp
      rcases List.mem_append.mp hp with hp | hp
      · by_cases hm : e ∈ (lookupTok subs tok).getD []
        · rw [if_pos hm] at hp
          simp only [List.mem_singleton] at hp
          subst hp
          intro hB
          have hB2 : tok = B := hB
          rw [hB2] at hm
          exact h hm
        · rw [if_neg hm] at hp
          exact absurd hp (List.not_mem_nil p)
      · exact ih subs h (by rwa [noRegUnder] at hreg) p hp

theorem lookupTok_eq_none_of_not_key (subs : Subs) (tok : Nat)
    (h : tok ∉ subs.map Prod.fst) : lookupTok subs tok = none := by
  induction subs with
  | nil => rfl
  | cons p rest ih =>
    obtain ⟨t, v⟩ := p
    rw [List.map_cons] at h
    have ht : t ≠ tok := fun he => h (he ▸ List.mem_cons_self _ _)
    rw [lookupTok, if_neg ht]
    exact ih (fun hx => h (List.mem_cons_of_mem _ hx))

theorem updateTok_lookup_id (subs : Subs) (tok : Nat) (eps : List Nat)
    (hk : KeysNodup subs) (hl : lookupTok subs tok = some eps) :
    updateTok subs tok eps = subs := by
  induction subs with
  | nil => rfl
  | cons p rest ih =>
    obtain ⟨t, v⟩ := p
    rw [KeysNodup, List.map_cons, List.nodup_cons] at hk
    by_cases ht : t = tok
    · rw [lookupTok, if_pos ht] at hl
      have hv : v = eps := Option.some_inj.mp hl
      have hrest : lookupTok rest tok = none :=
        lookupTok_eq_none_of_not_key rest tok (ht ▸ hk.1)
      rw [updateTok, if_pos ht, hv, updateTok_id_of_none rest tok eps hrest]
    · rw [lookupTok, if_neg ht] at hl
      rw [updateTok, if_neg ht, ih hk.2 hl]

/-! ## Concrete states used by the witnesses -/

/-- A broadcaster with a capacity-2 input buffer and endpoint 7 registered. -/
def wS0 : BState Nat :=
  { inputCap := 2, input := [], outputs := [7],
    delivered := fun _ => [], regClosed := false, unregClosed := false }

def wEvs : List (BEvent Nat) :=
  [BEvent.inputEv 5, BEvent.regEv 3, BEvent.inputEv 6,
    BEvent.unregEv 7, BEvent.inputEv 9]

/-- A broadcaster whose capacity-1 input buffer is full. -/
def wFull : BState Nat :=
  { inputCap := 1, input := [4], outputs := [], delivered := fun _ => [],
    regClosed := false, unregClosed := false }

/-- A broadcaster whose capacity-1 input buffer is empty. -/
def wRoom : BState Nat :=
  { inputCap := 1, input := [], outputs := [], delivered := fun _ => [],
    regClosed := false, unregClosed := false }

/-- A fresh mux observer. -/
def wMux0 : MuxState Nat :=
  { subs := [], delivered := fun _ => [], input := [], inputCap := 1,
    regQueue := [], regClosed := false }

def wSubs : Subs := [(0, [5]), (1, [6, 7])]

def wTrU : TaggedRegReq := ⟨0, 5, RegType.unregister⟩

def wTrP : TaggedRegReq := ⟨2, 9, RegType.register⟩

/-- A mux observer with a pending registration request and a pending
observation. -/
def wMuxQ : MuxState Nat :=
  { subs := [], delivered := fun _ => [], input := [(0, 1)], inputCap := 2,
    regQueue := [wTrP], regClosed := false }

/-- A mux observer whose registration channel is closed and drained. -/
def wMuxT : MuxState Nat :=
  { subs := [], delivered := fun _ => [], input := [(0, 1)], inputCap := 2,
    regQueue := [], regClosed := true }

/-- A mux observer with endpoint 4 registered under token 1. -/
def wMuxS : MuxState Nat :=
  { subs := [(1, [4])], delivered := fun _ => [], input := [], inputCap := 1,
    regQueue := [], regClosed := false }

def wIso : MuxState Nat :=
  { subs := [], delivered := fun _ => [], input := [], inputCap := 4,
    regQueue := [], regClosed := false }

def wIsoEvs : List (MuxEvent Nat) :=
  [MuxEvent.regReq ⟨0, 10, RegType.register⟩, MuxEvent.obs 1 99,
    MuxEvent.obs 0 5, MuxEvent.regReq ⟨1, 11, RegType.register⟩,
    MuxEvent.obs 1 7]

/-! ## Claim theorems -/

/-- C1: every value the broadcaster loop dequeues is received exactly once
by each endpoint that is in the output set at that moment — the
`specDeliveries` ledger appends exactly one copy of a dequeued value
precisely when the endpoint is registered — and the values an endpoint sees
form a sublist of the submitted values, i.e. they arrive in submission
order. -/
theorem fanout_complete (s : BState T) (evs : List (BEvent T)) (e : Nat)
    (hnd : s.outputs.Nodup) :
    (bRun s evs).delivered e = s.delivered e ++ specDeliveries e s.outputs evs ∧
      List.Sublist (specDeliveries e s.outputs evs) (submittedValues evs) :=
  ⟨bRun_delivered e evs s hnd, specDeliveries_sublist e evs s.outputs⟩

theorem fanout_complete_witness :
    wS0.outputs.Nodup ∧
      ((bRun wS0 wEvs).delivered 7 =
          wS0.delivered 7 ++ specDeliveries 7 wS0.outputs wEvs ∧
        List.Sublist (specDeliveries 7 wS0.outputs wEvs) (submittedValues wEvs)) :=
  ⟨by decide, fanout_complete wS0 wEvs 7 (by decide)⟩

/-- C2: with the loop paused, `TrySubmit` on a full input buffer (N queued
values with capacity N) returns `false` and leaves the queue unchanged,
while on a buffer holding fewer than N values it returns `true` and appends
the value. -/
theorem trySubmit_boundary (s : BState T) (m : T) :
    (s.input.length = s.inputCap → bTrySubmit (some s) m = (false, some s)) ∧
      (s.input.length < s.inputCap →
        bTrySubmit (some s) m = (true, some { s with input := s.input ++ [m] })) := by
  constructor
  · intro h
    have hn : ¬ s.input.length < s.inputCap := by omega
    simp [bTrySubmit, hn]
  · intro h
    simp [bTrySubmit, h]

theorem trySubmit_boundary_witness :
    bTrySubmit (some wFull) 6 = (false, some wFull) ∧
      bTrySubmit (some wRoom) 5 =
        (true, some { wRoom with input := wRoom.input ++ [5] }) :=
  ⟨(trySubmit_boundary wFull 6).1 (by decide),
    (trySubmit_boundary wRoom 5).2 (by decide)⟩

/-- C3 counterexample: `Submit` on a nil sub-handle dereferences `s.mo`
without any nil guard and faults, refuting the claim that every submission
on a nil instance never faults. -/
theorem nil_submit_counterexample :
    subSubmit (none : Option Nat) wMux0 (0 : Nat) = SubmitRes.fault := rfl

/-- C3 amended: `Submit` and `TrySubmit` on a nil `broadcaster` are a silent
no-op and `false` respectively, and `TrySubmit` on a nil sub-handle returns
`false` leaving the observer untouched; but `Submit` on a nil sub-handle
faults, because its body has no nil guard. -/
theorem nil_submission_amended (mux : MuxState T) (m : T) :
    bSubmit (none : Option (BState T)) m = SubmitRes.noop ∧
      bTrySubmit (none : Option (BState T)) m = (false, none) ∧
      subTrySubmit (none : Option Nat) mux m = (false, mux) ∧
      subSubmit (none : Option Nat) mux m = SubmitRes.fault :=
  ⟨rfl, rfl, rfl, rfl⟩

/-- C4: processing any registration-queue request preserves the invariant
that a token's entry exists in the subscription map only with at least one
endpoint; a purge request deletes the token's entry unconditionally; and an
unregister request removing a token's last endpoint deletes the entry in the
same step. -/
theorem subs_entry_invariant (subs : Subs) (tr : TaggedRegReq)
    (h : SubsInv subs) :
    SubsInv (handleReg tr subs) ∧
      (tr.regType = RegType.purge →
        lookupTok (handleReg tr subs) tr.sub = none) ∧
      (tr.regType = RegType.unregister → lookupTok subs tr.sub = some [tr.ch] →
        lookupTok (handleReg tr subs) tr.sub = none) := by
  refine ⟨subsInv_handleReg tr subs h, ?_, ?_⟩
  · intro hp
    have hh : handleReg tr subs = removeTok subs tr.sub := by
      unfold handleReg
      rw [hp]
    rw [hh]
    exact lookupTok_removeTok_self subs tr.sub
  · intro hu hl
    have hh : handleReg tr subs = doUnreg tr subs := by
      unfold handleReg
      rw [hu]
    rw [hh]
    unfold doUnreg
    rw [hl]
    simpa [List.erase_cons_head] using lookupTok_removeTok_self subs tr.sub

theorem subs_entry_invariant_witness :
    SubsInv (handleReg wTrU wSubs) ∧
      lookupTok (handleReg wTrU wSubs) wTrU.sub = none :=
  ⟨(subs_entry_invariant wSubs wTrU (by decide)).1,
    (subs_entry_invariant wSubs wTrU (by decide)).2.2 rfl rfl⟩

/-- C5: in each iteration of `MuxObserver.run`, an immediately available
registration request is processed before any observation (the observation
queue is untouched); the iteration terminates the loop exactly when the
registration queue is empty and observed closed; and only with no pending
request on an open registration channel does the loop consume an observation
or block on both queues. -/
theorem mux_loop_priority (s : MuxState T) :
    (∀ tr rest, s.regQueue = tr :: rest →
        muxIter s = IterResult.next (muxHandleReg tr { s with regQueue := rest }) ∧
          (muxHandleReg tr { s with regQueue := rest }).input = s.input) ∧
      (muxIter s = IterResult.terminated ↔
        s.regQueue = [] ∧ s.regClosed = true) ∧
      (s.regQueue = [] → s.regClosed = false →
        (∀ ob rest, s.input = ob :: rest →
            muxIter s =
              IterResult.next (muxBroadcast ob.1 ob.2 { s with input := rest })) ∧
          (s.input = [] → muxIter s = IterResult.blocked)) := by
  refine ⟨?_, ?_, ?_⟩
  · intro tr rest hq
    refine ⟨?_, rfl⟩
    unfold muxIter
    rw [hq]
  · unfold muxIter
    cases hq : s.regQueue with
    | cons tr rest => simp
    | nil =>
      cases hc : s.regClosed with
      | true => simp
      | false =>
        cases hi : s.input with
        | cons ob rest => simp
        | nil => simp
  · intro hq hc
    constructor
    · intro ob rest hi
      unfold muxIter
      rw [hq, hc, hi]
      rfl
    · intro hi
      unfold muxIter
      rw [hq, hc, hi]
      rfl

theorem mux_loop_priority_witness :
    (muxIter wMuxQ = IterResult.next (muxHandleReg wTrP { wMuxQ with regQueue := [] }) ∧
        (muxHandleReg wTrP { wMuxQ with regQueue := [] }).input = wMuxQ.input) ∧
      muxIter wMuxT = IterResult.terminated :=
  ⟨(mux_loop_priority wMuxQ).1 wTrP [] rfl,
    ((mux_loop_priority wMuxT).2.1).mpr ⟨rfl, rfl⟩⟩

/-- C6: an observation whose token has no entry in the subscription map is
silently dropped — the whole state, the map included, is unchanged — and
otherwise the value is appended exactly once to the history of precisely the
endpoints registered under that token, the map again unchanged. -/
theorem demux_dispatch (s : MuxState T) (tok : Nat) (v : T) :
    (lookupTok s.subs tok = none → muxBroadcast tok v s = s) ∧
      (∀ eps, lookupTok s.subs tok = some eps → eps.Nodup →
        (muxBroadcast tok v s).subs = s.subs ∧
          ∀ e, (muxBroadcast tok v s).delivered e =
            if e ∈ eps then s.delivered e ++ [v] else s.delivered e) := by
  constructor
  · intro h
    unfold muxBroadcast
    rw [h]
    rfl
  · intro eps hl hnd
    refine ⟨rfl, ?_⟩
    intro e
    show deliverList ((lookupTok s.subs tok).getD []) v s.delivered e = _
    rw [hl]
    exact deliverList_eval eps hnd v s.delivered e

theorem demux_dispatch_witness :
    muxBroadcast 2 9 wMuxS = wMuxS ∧
      (muxBroadcast 1 9 wMuxS).delivered 4 =
        (if 4 ∈ [4] then wMuxS.delivered 4 ++ [9] else wMuxS.delivered 4) :=
  ⟨(demux_dispatch wMuxS 2 9).1 rfl,
    ((demux_dispatch wMuxS 1 9).2 [4] rfl (by decide)).2 4⟩

/-- C7: when endpoint `e` is never registered under token `B` — absent
initially and never the target of a register request tagged `B` — then over
an arbitrary interleaving of requests and observations everything `e`
receives is accounted for by the `specReceived` ledger, and no entry of that
ledger carries token `B`: values submitted through sub-handle `B` are never
delivered to an endpoint registered only under other sub-handles. -/
theorem mux_isolation (s : MuxState T) (evs : List (MuxEvent T)) (e B : Nat)
    (hnd : EpsNodup s.subs)
    (hinit : e ∉ (lookupTok s.subs B).getD [])
    (hreg : noRegUnder B e evs = true) :
    (muxRunEvents s evs).delivered e =
        s.delivered e ++ (specReceived e s.subs evs).map Prod.snd ∧
      ∀ p ∈ specReceived e s.subs evs, p.1 ≠ B :=
  ⟨muxRun_delivered e evs s hnd, specReceived_avoid e B evs s.subs hinit hreg⟩

theorem mux_isolation_witness :
    (muxRunEvents wIso wIsoEvs).delivered 10 =
        wIso.delivered 10 ++ (specReceived 10 wIso.subs wIsoEvs).map Prod.snd ∧
      ((0, 5) : Nat × Nat).1 ≠ 1 :=
  ⟨(mux_isolation wIso wIsoEvs 10 1 (by decide) (by decide) (by decide)).1,
    (mux_isolation wIso wIsoEvs 10 1 (by decide) (by decide) (by decide)).2
      (0, 5) (by decide)⟩

/-- C8: the first `Close` on a broadcaster closes both control channels and
returns no error, and the run loop returns as soon as it observes the
registration channel closed. -/
theorem broadcaster_close (s : BState T)
    (h1 : s.regClosed = false) (h2 : s.unregClosed = false) :
    bClose s = some ({ s with regClosed := true, unregClosed := true }, none) ∧
      ∀ s2 : BState T, bStep s2 BEvent.regClosedEv = none := by
  constructor
  · simp [bClose, h1, h2]
  · intro s2
    rfl

theorem broadcaster_close_witness :
    bClose wRoom = some ({ wRoom with regClosed := true, unregClosed := true }, none) ∧
      bStep wRoom BEvent.regClosedEv = none :=
  ⟨(broadcaster_close wRoom rfl rfl).1, (broadcaster_close wRoom rfl rfl).2 wRoom⟩

/-- C9: re-registering an endpoint that is already registered is idempotent:
the broadcaster state is unchanged, a register request for a channel already
present under its token leaves the multiplexer's map unchanged, and a
subsequent fan-out still delivers exactly one copy to that endpoint. -/
theorem reregister_idempotent (s : BState T) (e : Nat) (m : T)
    (subs : Subs) (tok ch : Nat)
    (he : e ∈ s.outputs) (hnd : s.outputs.Nodup)
    (hk : KeysNodup subs) (hch : ch ∈ (lookupTok subs tok).getD []) :
    bStep s (BEvent.regEv e) = some s ∧
      handleReg ⟨tok, ch, RegType.register⟩ subs = subs ∧
      (bBroadcast m s).delivered e = s.delivered e ++ [m] := by
  refine ⟨?_, ?_, ?_⟩
  · show some { s with outputs := insertEp e s.outputs } = some s
    rw [insertEp, if_pos he]
  · cases hl : lookupTok subs tok with
    | none =>
      rw [hl] at hch
      exact absurd hch (List.not_mem_nil ch)
    | some eps =>
      rw [hl] at hch
      simp only [Option.getD_some] at hch
      show doReg ⟨tok, ch, .register⟩ subs = subs
      unfold doReg
      rw [hl]
      show updateTok subs tok (insertEp ch eps) = subs
      rw [show insertEp ch eps = eps from by rw [insertEp, if_pos hch]]
      exact updateTok_lookup_id subs tok eps hk hl
  · show deliverList s.outputs m s.delivered e = _
    rw [deliverList_eval s.outputs hnd m s.delivered e, if_pos he]

theorem reregister_idempotent_witness :
    bStep wS0 (BEvent.regEv 7) = some wS0 ∧
      handleReg ⟨1, 6, RegType.register⟩ wSubs = wSubs ∧
      (bBroadcast 3 wS0).delivered 7 = wS0.delivered 7 ++ [3] :=
  reregister_idempotent wS0 7 3 wSubs 1 6 (by decide) (by decide) (by decide)
    (by decide)

/-- C10: a second `Close` on the same broadcaster or mux observer closes an
already-closed channel and faults instead of returning an error; only the
first `Close` is guaranteed to return no error. -/
theorem double_close_faults (sb : BState T) (sm : MuxState T)
    (hb : sb.regClosed = true) (hm : sm.regClosed = true) :
    bClose sb = none ∧ muxClose sm = none := by
  constructor
  · simp [bClose, hb]
  · simp [muxClose, hm]

theorem double_close_faults_witness :
    bClose { wRoom with regClosed := true, unregClosed := true } = none ∧
      muxClose { wMux0 with regClosed := true } = none :=
  double_close_faults { wRoom with regClosed := true, unregClosed := true }
    { wMux0 with regClosed := true } rfl rfl

end GoBroadcast
